import Mathlib

/-!
Shallow embedding of the asynchronous DHCPv4 client and server from
`src/asynch/dhcp.rs` (crate `edge-net`), together with proofs of the
specification claims about it.

Conventions of the embedding:
* IPv4 addresses are their big-endian `u32` numeric value, represented as `Nat`
  (always `< 2^32` for values originating from the code); `u32` overflow is
  made explicit with `% 2 ^ 32`.
* MACs (`[u8; 6]`) are `List Nat`.
* `embassy_time::Instant` and `Duration` are `Nat` (whole seconds); every
  `Instant::now()` read inside one synchronous call is the single `now`
  parameter of the corresponding Lean function.
* `heapless::LinearMap<Ipv4Addr, Lease, N>` is a `List (Nat × Lease)` whose
  keys are pairwise distinct and whose length is at most `N`; `insert`
  replaces the value when the key is present, appends when there is room, and
  fails otherwise, exactly like `heapless`.
* The UDP transport, clock and RNG are external collaborators: a server
  `handle` call consumes the decode outcome of the received datagram
  (`Except FormatError Packet`) and produces the reply it would send; the
  client send loop consumes an environment assigning to each attempt the
  clock reading at packet-build time and the outcome of that attempt's
  receive window.
-/

namespace EdgeNet

abbrev Mac := List Nat

/-- `255.255.255.255` as a big-endian 32-bit number. -/
def BROADCAST : Nat := 4294967295

/-- A server-side lease: client MAC and expiry instant (`struct Lease`). -/
structure Lease where
  mac : Mac
  expires : Nat
deriving DecidableEq, Repr

/-- The buffer of a `heapless::LinearMap<Ipv4Addr, Lease, N>`. -/
abbrev Entries := List (Nat × Lease)

/-- `LinearMap::get`: value of the first entry with the given key. -/
def lmGet (es : Entries) (k : Nat) : Option Lease :=
  (es.find? (fun e => e.1 == k)).map (fun e => e.2)

/-- `LinearMap::contains_key`. -/
def lmContains (es : Entries) (k : Nat) : Bool :=
  (es.find? (fun e => e.1 == k)).isSome

/-- `LinearMap::insert` with capacity `cap`: replace the value when the key is
present, append when there is room, fail (map unchanged) otherwise.  The
`Bool` is `insert(..).is_ok()`. -/
def lmInsert (cap : Nat) (es : Entries) (k : Nat) (v : Lease) : Entries × Bool :=
  if es.any (fun e => e.1 == k) then
    (es.map (fun e => if e.1 == k then (k, v) else e), true)
  else if es.length < cap then
    (es ++ [(k, v)], true)
  else
    (es, false)

/-- `LinearMap::remove`: drop the entry with the given key. -/
def lmRemove (es : Entries) (k : Nat) : Entries :=
  es.eraseP (fun e => e.1 == k)

/-- DHCP message types (`enum MessageType`). -/
inductive MessageType where
  | discover
  | offer
  | request
  | decline
  | ack
  | nak
  | release
  | inform
deriving DecidableEq, BEq, Repr

/-- The DHCP options the server FSM inspects; everything else is `other`. -/
inductive DhcpOption where
  | messageType (mt : MessageType)
  | serverIdentifier (ip : Nat)
  | requestedIpAddress (ip : Nat)
  | other
deriving DecidableEq, BEq, Repr

/-- The fields of a decoded `Packet` that the server FSM reads. -/
structure Packet where
  reply : Bool
  chaddr : Mac
  ciaddr : Nat
  options : List DhcpOption
deriving DecidableEq, Repr

/-- Decoding failure of a datagram (`dhcp::Error`, carried by
`Error::Format`). -/
inductive FormatError where
  | bad
deriving DecidableEq, Repr

/-- The observable content of a server reply built by `reply_to`: message type
and the `yiaddr` it sets. -/
structure Reply where
  mt : MessageType
  yiaddr : Option Nat
deriving DecidableEq, Repr

/-- `request.options.iter().find_map(.. MessageType ..)`. -/
def findMessageType (opts : List DhcpOption) : Option MessageType :=
  opts.findSome? fun o =>
    match o with
    | .messageType mt => some mt
    | _ => none

/-- `request.options.iter().find_map(.. ServerIdentifier ..)`. -/
def findServerIdentifier (opts : List DhcpOption) : Option Nat :=
  opts.findSome? fun o =>
    match o with
    | .serverIdentifier ip => some ip
    | _ => none

/-- `request.options.iter().find_map(.. RequestedIpAddress ..)`. -/
def findRequestedIp (opts : List DhcpOption) : Option Nat :=
  opts.findSome? fun o =>
    match o with
    | .requestedIpAddress ip => some ip
    | _ => none

/-- Server configuration (`server::Configuration`). -/
structure Configuration where
  ip : Nat
  gateway : Option Nat
  subnet : Option Nat
  dns1 : Option Nat
  dns2 : Option Nat
  range_start : Nat
  range_end : Nat
  lease_duration : Nat
deriving DecidableEq, Repr

/-- The server state (`struct Server<const N: usize>`); `N` is the lease-table
capacity. -/
structure Server (N : Nat) where
  ip : Nat
  gateways : List Nat
  subnet : Option Nat
  dns : List Nat
  range_start : Nat
  range_end : Nat
  lease_duration : Nat
  leases : Entries
deriving DecidableEq, Repr

/-- `Server::new`. -/
def Server.mk0 (N : Nat) (conf : Configuration) : Server N :=
  { ip := conf.ip
    gateways := conf.gateway.toList
    subnet := conf.subnet
    dns := conf.dns1.toList ++ conf.dns2.toList
    range_start := conf.range_start
    range_end := conf.range_end
    lease_duration := conf.lease_duration
    leases := [] }

/-- `Server::is_available`. -/
def is_available {N : Nat} (s : Server N) (now : Nat) (mac : Mac) (addr : Nat) : Bool :=
  let pos : Nat := addr
  let start : Nat := s.range_start
  let stop : Nat := s.range_end
  decide (pos ≥ start) && decide (pos ≤ stop) &&
    (match lmGet s.leases addr with
     | some lease => lease.mac == mac || decide (now > lease.expires)
     | none => true)

/-- The ascending scan `for pos in start..bound { .. }` of `Server::available`:
starting at `pos`, examine `n` consecutive addresses and return the first one
not present in the lease table. -/
def scanFree (es : Entries) : Nat → Nat → Option Nat
  | _, 0 => none
  | pos, n + 1 => if lmContains es pos then scanFree es (pos + 1) n else some pos

/-- `Server::current_lease`. -/
def current_lease {N : Nat} (s : Server N) (mac : Mac) : Option Nat :=
  s.leases.findSome? fun e => if e.2.mac == mac then some e.1 else none

/-- `Server::remove_lease`. -/
def remove_lease {N : Nat} (s : Server N) (mac : Mac) : Server N × Bool :=
  match current_lease s mac with
  | some addr => ({ s with leases := lmRemove s.leases addr }, true)
  | none => (s, false)

/-- `Server::add_lease`. -/
def add_lease {N : Nat} (s : Server N) (addr : Nat) (mac : Mac) (expires : Nat) :
    Server N × Bool :=
  let s1 := (remove_lease s mac).1
  let r := lmInsert N s1.leases addr ⟨mac, expires⟩
  ({ s1 with leases := r.1 }, r.2)

/-- `Server::available`.  The scan bound is `range_end + 1` computed in `u32`
arithmetic, hence the explicit `% 2 ^ 32`. -/
def available {N : Nat} (s : Server N) (now : Nat) : Option Nat × Server N :=
  let start : Nat := s.range_start
  let stop : Nat := s.range_end
  let bound : Nat := (stop + 1) % 2 ^ 32
  match scanFree s.leases start (bound - start) with
  | some addr => (some addr, s)
  | none =>
    match s.leases.findSome? (fun e => if decide (now > e.2.expires) then some e.1 else none) with
    | some addr => (some addr, { s with leases := lmRemove s.leases addr })
    | none => (none, s)

/-- The `MessageType::Discover` arm of `Server::handle`. -/
def handleDiscover {N : Nat} (s : Server N) (now : Nat) (request : Packet) :
    Server N × Option Reply :=
  let requested := findRequestedIp request.options
  let pick : Option Nat × Server N :=
    match requested.bind (fun ip => if is_available s now request.chaddr ip then some ip else none) with
    | some ip => (some ip, s)
    | none =>
      match current_lease s request.chaddr with
      | some ip => (some ip, s)
      | none => available s now
  match pick with
  | (some ip, s2) => (s2, some ⟨.offer, some ip⟩)
  | (none, s2) => (s2, none)

/-- The `MessageType::Request` arm of `Server::handle`. -/
def handleRequest {N : Nat} (s : Server N) (now : Nat) (request : Packet) :
    Server N × Option Reply :=
  let ip := (findRequestedIp request.options).getD request.ciaddr
  if is_available s now request.chaddr ip then
    let r := add_lease s ip request.chaddr (now + s.lease_duration)
    if r.2 then (r.1, some ⟨.ack, some ip⟩) else (r.1, some ⟨.nak, none⟩)
  else
    (s, some ⟨.nak, none⟩)

/-- The `match mt { .. }` of `Server::handle`. -/
def handleMessage {N : Nat} (s : Server N) (now : Nat) (request : Packet)
    (mt : MessageType) : Server N × Option Reply :=
  match mt with
  | .discover => handleDiscover s now request
  | .request => handleRequest s now request
  | .decline => ((remove_lease s request.chaddr).1, none)
  | .release => ((remove_lease s request.chaddr).1, none)
  | _ => (s, none)

/-- `Server::handle`, given the decode outcome of the received datagram.  A
decode failure propagates via `?` as a `Format` error; otherwise the call
returns `Ok` with the new server state and the reply to be sent, if any. -/
def handle {N : Nat} (s : Server N) (now : Nat) (d : Except FormatError Packet) :
    Except FormatError (Server N × Option Reply) :=
  match d with
  | .error e => .error e
  | .ok request =>
    if !request.reply then
      match findMessageType request.options with
      | some mt =>
        if findServerIdentifier request.options == some s.ip
            || (findServerIdentifier request.options == none && mt == MessageType.discover) then
          .ok (handleMessage s now request mt)
        else
          .ok (s, none)
      | none => .ok (s, none)
    else
      .ok (s, none)

/-- `Except.isOk` as a plain function. -/
def isOkE {ε α : Type} : Except ε α → Bool
  | .ok _ => true
  | .error _ => false

/-- Server states reachable from `Server::new` by a sequence of `handle`
calls (each with an arbitrary clock reading and arbitrary datagram). -/
inductive Reachable (N : Nat) : Server N → Prop where
  | init (conf : Configuration) : Reachable N (Server.mk0 N conf)
  | step {s s2 : Server N} {r : Option Reply} (now : Nat) (d : Except FormatError Packet) :
      Reachable N s → handle s now d = .ok (s2, r) → Reachable N s2

/-- Number of lease-table entries bound to a given MAC. -/
def macCount (es : Entries) (m : Mac) : Nat :=
  es.countP fun e => e.2.mac == m

/-- The lease-table keys are pairwise distinct (`heapless::LinearMap`
representation invariant). -/
def KeysNodup (es : Entries) : Prop :=
  (es.map Prod.fst).Nodup

/-- `addr` lies in the server's inclusive pool. -/
def inPool {N : Nat} (s : Server N) (addr : Nat) : Prop :=
  s.range_start ≤ addr ∧ addr ≤ s.range_end

/- ------------------------------------------------------------------ -/
/- Client                                                              -/
/- ------------------------------------------------------------------ -/

/-- One frame sent by the client loop, with the parameters of the
`connect_from` call that opened the socket and the `secs` field of the
encoded request. -/
structure SentFrame where
  remoteAddr : Nat
  remotePort : Nat
  localAddr : Nat
  localPort : Nat
  secs : Nat
deriving DecidableEq, Repr

/-- Summary of one attempt's receive window in `Client::send`: a frame whose
`parse_reply` matched `(mac, xid)` with an expected message type arrived, or
the window timed out, or the transport failed, or a received frame failed to
decode. -/
inductive InnerOutcome where
  | matched (mt : MessageType)
  | timedOut
  | ioError
  | formatError
deriving DecidableEq, Repr

/-- The environment of one attempt: the clock reading (whole seconds) when the
request packet is built, and the outcome of the receive window. -/
structure AttemptEnv where
  now : Nat
  inner : InnerOutcome

/-- Client-side error taxonomy (`Error<E>`), with the transport error erased. -/
inductive ClientError where
  | io
  | format
  | timeout
deriving DecidableEq, Repr

/-- The frame one attempt sends: the `connect_from` arguments of
`Client::send` (remote `(server_ip|broadcast, 66)`, local
`(our_ip|broadcast, 67)`) and the request's `secs` field, the elapsed
seconds cast `as u16`. -/
def mkFrame (server_ip our_ip : Option Nat) (start nowv : Nat) : SentFrame :=
  { remoteAddr := server_ip.getD BROADCAST
    remotePort := 66
    localAddr := our_ip.getD BROADCAST
    localPort := 67
    secs := (nowv - start) % 65536 }

namespace Client

/-- The `for _ in 0..self.retries` loop of `Client::send`: `i` is the attempt
index, `n` the remaining attempts, `sent` the frames sent so far.  Each
attempt opens the socket with `connect_from((server_ip|broadcast, 66),
(our_ip|broadcast, 67))`, builds a request whose `secs` field is the elapsed
seconds cast `as u16` (truncation mod 65536), and sends it; when no reply
types are expected the call returns `Ok` at once, otherwise the window
outcome decides. -/
def sendAttempts (env : Nat → AttemptEnv) (expected : List MessageType)
    (server_ip our_ip : Option Nat) (start : Nat) :
    Nat → Nat → List SentFrame → Except ClientError (Option MessageType) × List SentFrame
  | _, 0, sent => (.error .timeout, sent)
  | i, n + 1, sent =>
    let sent2 := sent ++ [mkFrame server_ip our_ip start (env i).now]
    if expected.isEmpty then
      (.ok none, sent2)
    else
      match (env i).inner with
      | .matched mt => (.ok (some mt), sent2)
      | .timedOut => sendAttempts env expected server_ip our_ip start (i + 1) n sent2
      | .ioError => (.error .io, sent2)
      | .formatError => (.error .format, sent2)

/-- `Client::send`: run up to `retries` attempts starting from attempt 0 with
no frame sent yet. -/
def send (env : Nat → AttemptEnv) (expected : List MessageType)
    (server_ip our_ip : Option Nat) (start retries : Nat) :
    Except ClientError (Option MessageType) × List SentFrame :=
  sendAttempts env expected server_ip our_ip start 0 retries []

end Client

instance {ε α : Type} [DecidableEq ε] [DecidableEq α] : DecidableEq (Except ε α) := fun a b =>
  match a, b with
  | .ok x, .ok y =>
    if h : x = y then .isTrue (by rw [h]) else .isFalse (by intro hc; cases hc; exact h rfl)
  | .error x, .error y =>
    if h : x = y then .isTrue (by rw [h]) else .isFalse (by intro hc; cases hc; exact h rfl)
  | .ok _, .error _ => .isFalse (by intro hc; cases hc)
  | .error _, .ok _ => .isFalse (by intro hc; cases hc)

/-- The representation and pool invariants of a server state: the lease-table
keys are pairwise distinct, every MAC owns at most one lease, and every key
lies in the pool. -/
def Inv {N : Nat} (s : Server N) : Prop :=
  KeysNodup s.leases ∧ (∀ m, macCount s.leases m ≤ 1) ∧
    (∀ e ∈ s.leases, s.range_start ≤ e.1 ∧ e.1 ≤ s.range_end)

/- Concrete inputs used by witnesses and counterexamples. -/

/-- MAC `02:00:00:00:00:01`. -/
def macA : Mac := [2, 0, 0, 0, 0, 1]

/-- MAC `02:00:00:00:00:02`. -/
def macB : Mac := [2, 0, 0, 0, 0, 2]

/-- A fresh server configuration with pool `[10, 12]`. -/
def conf0 : Configuration :=
  { ip := 100, gateway := none, subnet := none, dns1 := none, dns2 := none,
    range_start := 10, range_end := 12, lease_duration := 3600 }

/-- A `Request` datagram from `macA` for address 10, addressed to server
100. -/
def pReq : Packet :=
  { reply := false, chaddr := macA, ciaddr := 0,
    options := [.messageType .request, .serverIdentifier 100, .requestedIpAddress 10] }

/-- The state reached from `Server.mk0 4 conf0` by handling `pReq`. -/
def sStep : Server 4 :=
  { ip := 100, gateways := [], subnet := none, dns := [],
    range_start := 10, range_end := 12, lease_duration := 3600,
    leases := [(10, ⟨macA, 3600⟩)] }

/-- Capacity-1 server whose single slot is taken by `macB`'s lease on
address 20; pool `[10, 30]`. -/
def s8 : Server 1 :=
  { ip := 100, gateways := [], subnet := none, dns := [],
    range_start := 10, range_end := 30, lease_duration := 50,
    leases := [(20, ⟨macB, 1000⟩)] }

/-- A `Request` datagram from `macA` for address 15, addressed to server
100. -/
def p8 : Packet :=
  { reply := false, chaddr := macA, ciaddr := 0,
    options := [.messageType .request, .serverIdentifier 100, .requestedIpAddress 15] }

/-- Server with pool `[10, 12]` where address 10 is leased to `macB`. -/
def s3 : Server 2 :=
  { ip := 100, gateways := [], subnet := none, dns := [],
    range_start := 10, range_end := 12, lease_duration := 50,
    leases := [(10, ⟨macB, 5⟩)] }

/-- Server whose pool ends at `255.255.255.255`, with an empty lease table. -/
def s10 : Server 4 :=
  { ip := 100, gateways := [], subnet := none, dns := [],
    range_start := 0, range_end := 4294967295, lease_duration := 50,
    leases := [] }

/-- A reply datagram (as sent by a server, not a request). -/
def p4 : Packet :=
  { reply := true, chaddr := macA, ciaddr := 0, options := [.messageType .offer] }

/-- Client environment: every attempt's clock reads 65536 s and its window
times out. -/
def env65536 : Nat → AttemptEnv := fun _ => ⟨65536, .timedOut⟩

/-- Client environment: every attempt's clock reads 70000 s and its window
times out. -/
def env70000 : Nat → AttemptEnv := fun _ => ⟨70000, .timedOut⟩

/- ------------------------------------------------------------------ -/
/- Lemmas about the lease-table model                                  -/
/- ------------------------------------------------------------------ -/

theorem lmGet_eq_none_iff {es : Entries} {k : Nat} :
    lmGet es k = none ↔ lmContains es k = false := by
  unfold lmGet lmContains
  cases h : es.find? (fun e => e.1 == k) <;> simp [h]

theorem lmContains_eq_false_iff {es : Entries} {k : Nat} :
    lmContains es k = false ↔ ∀ e ∈ es, e.1 ≠ k := by
  unfold lmContains
  cases h : es.find? (fun e => e.1 == k) with
  | none =>
    rw [List.find?_eq_none] at h
    simpa using h
  | some e =>
    have h1 := List.find?_some h
    have h2 := List.mem_of_find?_eq_some h
    simp only [beq_iff_eq] at h1
    simp only [Option.isSome_some]
    constructor
    · intro hc; cases hc
    · intro hall; exact absurd h1 (hall e h2)

theorem lmGet_of_mem {es : Entries} {k : Nat} {l : Lease}
    (hnd : KeysNodup es) (hm : (k, l) ∈ es) : lmGet es k = some l := by
  induction es with
  | nil => cases hm
  | cons e es ih =>
    unfold KeysNodup at hnd
    rw [List.map_cons, List.nodup_cons] at hnd
    rcases List.mem_cons.mp hm with he | htail
    · subst he
      simp [lmGet, List.find?_cons]
    · by_cases hk : e.1 = k
      · exfalso
        apply hnd.1
        rw [hk]
        exact List.mem_map.mpr ⟨(k, l), htail, rfl⟩
      · have : (e.1 == k) = false := by simpa using hk
        simp only [lmGet, List.find?_cons, this]
        exact ih hnd.2 htail

theorem countKey_le_one {es : Entries} (hnd : KeysNodup es) (k : Nat) :
    es.countP (fun e => e.1 == k) ≤ 1 := by
  induction es with
  | nil => simp
  | cons e es ih =>
    unfold KeysNodup at hnd
    rw [List.map_cons, List.nodup_cons] at hnd
    rw [List.countP_cons]
    by_cases hk : e.1 = k
    · have hz : es.countP (fun e => e.1 == k) = 0 := by
        rw [List.countP_eq_zero]
        intro a ha hak
        apply hnd.1
        rw [hk]
        simp only [beq_iff_eq] at hak
        rw [← hak]
        exact List.mem_map.mpr ⟨a, ha, rfl⟩
      simp [hz, hk]
    · have : (e.1 == k) = false := by simpa using hk
      simp only [this, if_false]
      exact Nat.le_trans (Nat.le_of_eq (Nat.add_zero _)) (ih hnd.2)

theorem macCount_sublist {es es' : Entries} (h : es'.Sublist es) (m : Mac) :
    macCount es' m ≤ macCount es m :=
  List.Sublist.countP_le _ h

/-- `remove_lease` only changes the lease list, and shrinks it to a
sublist. -/
theorem remove_lease_shape {N : Nat} (s : Server N) (mac : Mac) :
    ∃ es, (remove_lease s mac).1 = { s with leases := es } ∧ es.Sublist s.leases := by
  unfold remove_lease
  cases h : current_lease s mac with
  | some addr => exact ⟨lmRemove s.leases addr, rfl, List.eraseP_sublist _⟩
  | none => exact ⟨s.leases, rfl, List.Sublist.refl _⟩

/-- `available` only changes the lease list, and shrinks it to a sublist. -/
theorem available_shape {N : Nat} (s : Server N) (now : Nat) :
    ∃ es, (available s now).2 = { s with leases := es } ∧ es.Sublist s.leases := by
  cases h1 : scanFree s.leases s.range_start ((s.range_end + 1) % 2 ^ 32 - s.range_start) with
  | some addr =>
    refine ⟨s.leases, ?_, List.Sublist.refl _⟩
    simp only [available, h1]
  | none =>
    cases h2 : s.leases.findSome?
        (fun e => if decide (now > e.2.expires) then some e.1 else none) with
    | some addr =>
      refine ⟨lmRemove s.leases addr, ?_, List.eraseP_sublist _⟩
      simp only [available, h1, h2]
    | none =>
      refine ⟨s.leases, ?_, List.Sublist.refl _⟩
      simp only [available, h1, h2]

theorem inv_of_sublist {N : Nat} {s : Server N} {es : Entries}
    (h : Inv s) (hsub : es.Sublist s.leases) : Inv ({ s with leases := es } : Server N) := by
  obtain ⟨hnd, hmac, hpool⟩ := h
  refine ⟨?_, ?_, ?_⟩
  · exact List.Nodup.sublist (List.Sublist.map _ hsub) hnd
  · intro m
    exact Nat.le_trans (macCount_sublist hsub m) (hmac m)
  · intro e he
    exact hpool e (hsub.subset he)

theorem remove_lease_inv {N : Nat} {s : Server N} (h : Inv s) (mac : Mac) :
    Inv (remove_lease s mac).1 := by
  obtain ⟨es, heq, hsub⟩ := remove_lease_shape s mac
  rw [heq]
  exact inv_of_sublist h hsub

theorem available_inv {N : Nat} {s : Server N} (h : Inv s) (now : Nat) :
    Inv (available s now).2 := by
  obtain ⟨es, heq, hsub⟩ := available_shape s now
  rw [heq]
  exact inv_of_sublist h hsub

/-- After `remove_lease s mac`, no entry is bound to `mac` (this is where the
key-uniqueness and at-most-one-per-MAC invariants are needed). -/
theorem macCount_remove_lease {N : Nat} {s : Server N} (h : Inv s) (mac : Mac) :
    macCount (remove_lease s mac).1.leases mac = 0 := by
  obtain ⟨hnd, hmac, -⟩ := h
  unfold remove_lease
  cases hc : current_lease s mac with
  | none =>
    unfold current_lease at hc
    rw [List.findSome?_eq_none_iff] at hc
    simp only
    rw [macCount, List.countP_eq_zero]
    intro e he hbe
    have := hc e he
    simp only [hbe, if_true] at this
    cases this
  | some addr =>
    unfold current_lease at hc
    obtain ⟨e, hem, hee⟩ := List.exists_of_findSome?_eq_some hc
    by_cases hmm : e.2.mac == mac
    case neg => simp [hmm] at hee
    have haddr : e.1 = addr := by
      simp only [hmm, if_true, Option.some.injEq] at hee
      exact hee
    -- decompose the erasure
    have hpe : (fun x : Nat × Lease => x.1 == addr) e = true := by
      simp [haddr]
    obtain ⟨b, l₁, l₂, hl₁, hpb, hdec, herase⟩ :=
      List.exists_of_eraseP (p := fun x : Nat × Lease => x.1 == addr) hem hpe
    simp only [lmRemove]
    rw [herase]
    -- keys are unique, so `l₂` holds no entry with key `addr`
    have hkc := countKey_le_one hnd addr
    rw [hdec, List.countP_append, List.countP_cons] at hkc
    simp only [hpb, if_true] at hkc
    have hl₂z : l₂.countP (fun x : Nat × Lease => x.1 == addr) = 0 := by omega
    -- hence the erased entry `b` is exactly the found entry `e`
    rw [hdec] at hem
    have heb : e = b := by
      rcases List.mem_append.mp hem with h1 | h2
      · exact absurd hpe (hl₁ e h1)
      · rcases List.mem_cons.mp h2 with h3 | h4
        · exact h3
        · exact absurd hpe (List.countP_eq_zero.mp hl₂z e h4)
    -- the MAC count of the whole list was at most 1 and `b` accounts for it
    have hm1 := hmac mac
    rw [macCount, hdec, List.countP_append, List.countP_cons] at hm1
    have hqb : (fun x : Nat × Lease => x.2.mac == mac) b = true := by
      rw [← heb]; exact hmm
    simp only [hqb, if_true] at hm1
    rw [macCount, List.countP_append]
    omega

theorem keys_map_replace (es : Entries) (k : Nat) (v : Lease) :
    (es.map (fun e => if e.1 == k then (k, v) else e)).map Prod.fst = es.map Prod.fst := by
  rw [List.map_map]
  apply List.map_congr_left
  intro e _
  by_cases h : e.1 = k
  · simp [Function.comp, h]
  · simp [Function.comp, h]

theorem mem_map_replace {es : Entries} {k : Nat} {v : Lease} {x : Nat × Lease}
    (hx : x ∈ es.map (fun e => if e.1 == k then (k, v) else e)) : x = (k, v) ∨ x ∈ es := by
  obtain ⟨e, he, hfe⟩ := List.mem_map.mp hx
  by_cases h : e.1 = k
  · left; rw [← hfe]; simp [h]
  · right
    have hrepl : (if (e.1 == k) = true then (k, v) else e) = e := by simp [h]
    rw [← hfe, hrepl]
    exact he

theorem macCount_map_replace (es : Entries) (k : Nat) (v : Lease) (m : Mac) :
    macCount (es.map (fun e => if e.1 == k then (k, v) else e)) m ≤
      (if v.mac = m then es.countP (fun e => e.1 == k) else 0) + macCount es m := by
  induction es with
  | nil => simp [macCount]
  | cons a es ih =>
    unfold macCount at ih ⊢
    simp only [List.map_cons, List.countP_cons]
    by_cases hk : a.1 = k <;> by_cases hm : v.mac = m <;> by_cases ha : a.2.mac = m <;>
      simp_all <;> omega

theorem not_mem_keys_of_any_false {es : Entries} {k : Nat}
    (h : es.any (fun e => e.1 == k) = false) : k ∉ es.map Prod.fst := by
  intro hk
  obtain ⟨e, he, hfe⟩ := List.mem_map.mp hk
  rw [List.any_eq_false] at h
  exact h e he (by simp [hfe])

/-- Inserting a lease for a MAC which holds no lease preserves the
invariants, provided the key is in the pool. -/
theorem lmInsert_inv {N cap : Nat} {s : Server N} {es : Entries} {addr : Nat} {v : Lease}
    (hInv : Inv ({ s with leases := es } : Server N))
    (h0 : macCount es v.mac = 0)
    (h1 : s.range_start ≤ addr) (h2 : addr ≤ s.range_end) :
    Inv ({ s with leases := (lmInsert cap es addr v).1 } : Server N) := by
  obtain ⟨hnd, hmac, hpool⟩ := hInv
  have hnd' : KeysNodup es := hnd
  have hmac' : ∀ m, macCount es m ≤ 1 := hmac
  have hpool' : ∀ e ∈ es, s.range_start ≤ e.1 ∧ e.1 ≤ s.range_end := hpool
  unfold lmInsert
  by_cases hany : es.any (fun e => e.1 == addr) = true
  · -- key present: value replaced in place
    simp only [hany, if_true]
    refine ⟨?_, ?_, ?_⟩
    · show KeysNodup (es.map (fun e => if e.1 == addr then (addr, v) else e))
      unfold KeysNodup
      rw [keys_map_replace]
      exact hnd'
    · show ∀ m, macCount (es.map (fun e => if e.1 == addr then (addr, v) else e)) m ≤ 1
      intro m
      have hb := macCount_map_replace es addr v m
      by_cases hm : v.mac = m
      · subst hm
        rw [if_pos rfl] at hb
        have hkle := countKey_le_one hnd' addr
        have hz : macCount es v.mac = 0 := h0
        omega
      · simp only [hm, if_false, Nat.zero_add] at hb
        exact Nat.le_trans hb (hmac' m)
    · show ∀ e ∈ es.map (fun e => if e.1 == addr then (addr, v) else e),
        s.range_start ≤ e.1 ∧ e.1 ≤ s.range_end
      intro e he
      rcases mem_map_replace he with rfl | hmem
      · exact ⟨h1, h2⟩
      · exact hpool' e hmem
  · -- key absent
    rw [Bool.not_eq_true] at hany
    simp only [hany, Bool.false_eq_true, if_false]
    by_cases hlen : es.length < cap
    · -- appended at the end
      simp only [hlen, if_true]
      refine ⟨?_, ?_, ?_⟩
      · show KeysNodup (es ++ [(addr, v)])
        unfold KeysNodup
        rw [List.map_append, List.nodup_append]
        refine ⟨hnd', List.nodup_singleton _, ?_⟩
        intro x hx hx1
        rcases List.mem_singleton.mp hx1 with rfl
        exact not_mem_keys_of_any_false hany hx
      · show ∀ m, macCount (es ++ [(addr, v)]) m ≤ 1
        intro m
        unfold macCount
        rw [List.countP_append]
        by_cases hm : v.mac = m
        · subst hm
          have hz : es.countP (fun e => e.2.mac == v.mac) = 0 := h0
          simp [hz]
        · have hf : ((addr, v).2.mac == m) = false := by simpa using hm
          simp only [List.countP_cons, List.countP_nil, hf, Bool.false_eq_true, if_false]
          have := hmac' m
          unfold macCount at this
          omega
      · show ∀ e ∈ es ++ [(addr, v)], s.range_start ≤ e.1 ∧ e.1 ≤ s.range_end
        intro e he
        rcases List.mem_append.mp he with hmem | hx
        · exact hpool' e hmem
        · rcases List.mem_singleton.mp hx with rfl
          exact ⟨h1, h2⟩
    · -- table full: unchanged
      simp only [hlen, if_false]
      exact ⟨hnd, hmac, hpool⟩

theorem is_available_bounds {N : Nat} {s : Server N} {now : Nat} {mac : Mac} {addr : Nat}
    (h : is_available s now mac addr = true) :
    s.range_start ≤ addr ∧ addr ≤ s.range_end := by
  unfold is_available at h
  simp only [Bool.and_eq_true, decide_eq_true_eq, ge_iff_le] at h
  exact ⟨h.1.1, h.1.2⟩

theorem add_lease_inv {N : Nat} {s : Server N} {addr : Nat} {mac : Mac} {exp : Nat}
    (h : Inv s) (h1 : s.range_start ≤ addr) (h2 : addr ≤ s.range_end) :
    Inv (add_lease s addr mac exp).1 := by
  obtain ⟨es1, heq, hsub⟩ := remove_lease_shape s mac
  have hInv1 := remove_lease_inv h mac
  have h0 := macCount_remove_lease h mac
  rw [heq] at hInv1 h0
  show Inv ({ (remove_lease s mac).1 with
    leases := (lmInsert N (remove_lease s mac).1.leases addr ⟨mac, exp⟩).1 } : Server N)
  rw [heq]
  exact lmInsert_inv hInv1 h0 h1 h2

/-- The state after the Discover arm is either unchanged or the state left by
`available` (which may have reclaimed an expired lease). -/
theorem handleDiscover_state {N : Nat} (s : Server N) (now : Nat) (p : Packet) :
    (handleDiscover s now p).1 = s ∨ (handleDiscover s now p).1 = (available s now).2 := by
  unfold handleDiscover
  cases hr : (findRequestedIp p.options).bind
      (fun ip => if is_available s now p.chaddr ip then some ip else none) with
  | some ip => left; simp only [hr]
  | none =>
    cases hc : current_lease s p.chaddr with
    | some ip => left; simp only [hr, hc]
    | none =>
      right
      simp only [hr, hc]
      rcases hav : available s now with ⟨o, s2⟩
      cases o <;> simp [hav]

theorem handleDiscover_inv {N : Nat} {s : Server N} (h : Inv s) (now : Nat) (p : Packet) :
    Inv (handleDiscover s now p).1 := by
  rcases handleDiscover_state s now p with heq | heq
  · rw [heq]; exact h
  · rw [heq]; exact available_inv h now

theorem handleRequest_inv {N : Nat} {s : Server N} (h : Inv s) (now : Nat) (p : Packet) :
    Inv (handleRequest s now p).1 := by
  unfold handleRequest
  by_cases hav : is_available s now p.chaddr ((findRequestedIp p.options).getD p.ciaddr) = true
  · have hb := is_available_bounds hav
    have hal : Inv (add_lease s ((findRequestedIp p.options).getD p.ciaddr) p.chaddr
        (now + s.lease_duration)).1 := add_lease_inv h hb.1 hb.2
    simp only [hav, if_true]
    split <;> exact hal
  · rw [Bool.not_eq_true] at hav
    simp only [hav, Bool.false_eq_true, if_false]
    exact h

theorem handleMessage_inv {N : Nat} {s : Server N} (h : Inv s) (now : Nat) (p : Packet)
    (mt : MessageType) : Inv (handleMessage s now p mt).1 := by
  cases mt with
  | discover => exact handleDiscover_inv h now p
  | request => exact handleRequest_inv h now p
  | decline => exact remove_lease_inv h p.chaddr
  | release => exact remove_lease_inv h p.chaddr
  | offer => exact h
  | ack => exact h
  | nak => exact h
  | inform => exact h

/-- Any successful `handle` call preserves the server invariants. -/
theorem handle_inv {N : Nat} {s s2 : Server N} {r : Option Reply} {now : Nat}
    {d : Except FormatError Packet} (h : Inv s) (he : handle s now d = .ok (s2, r)) :
    Inv s2 := by
  cases d with
  | error e => simp [handle] at he
  | ok req =>
    by_cases hr : req.reply = true
    · simp only [handle, hr, Bool.not_true, Bool.false_eq_true, if_false] at he
      obtain ⟨rfl, -⟩ : s = s2 ∧ none = r := by
        simpa [Prod.ext_iff] using he
      exact h
    · rw [Bool.not_eq_true] at hr
      cases hmt : findMessageType req.options with
      | none =>
        simp only [handle, hr, hmt, Bool.not_false, if_true] at he
        obtain ⟨rfl, -⟩ : s = s2 ∧ none = r := by
          simpa [Prod.ext_iff] using he
        exact h
      | some mt =>
        by_cases hg : (findServerIdentifier req.options == some s.ip
            || (findServerIdentifier req.options == none && mt == MessageType.discover)) = true
        · simp only [handle, hr, hmt, hg, Bool.not_false, if_true] at he
          have heq : handleMessage s now req mt = (s2, r) := by
            simpa using he
          have hi := handleMessage_inv h now req mt
          rw [heq] at hi
          exact hi
        · rw [Bool.not_eq_true] at hg
          simp only [handle, hr, hmt, hg, Bool.not_false, if_true, Bool.false_eq_true,
            if_false] at he
          obtain ⟨rfl, -⟩ : s = s2 ∧ none = r := by
            simpa [Prod.ext_iff] using he
          exact h

/-- Every reachable server state satisfies the invariants. -/
theorem reachable_inv {N : Nat} {s : Server N} (h : Reachable N s) : Inv s := by
  induction h with
  | init conf =>
    refine ⟨?_, ?_, ?_⟩
    · show KeysNodup ([] : Entries)
      simp [KeysNodup]
    · intro m
      show macCount ([] : Entries) m ≤ 1
      simp [macCount]
    · intro e he
      cases he
  | step now d hs he ih => exact handle_inv ih he

/-- C1: `is_available(mac, ip)` is true iff `ip` lies in the inclusive pool
`[range_start, range_end]` and either no lease exists for `ip`, or the
lease's MAC equals `mac`, or the lease has expired. -/
theorem is_available_iff {N : Nat} (s : Server N) (now : Nat) (mac : Mac) (addr : Nat) :
    is_available s now mac addr = true ↔
      (s.range_start ≤ addr ∧ addr ≤ s.range_end ∧
        (lmGet s.leases addr = none ∨
          ∃ l, lmGet s.leases addr = some l ∧ (l.mac = mac ∨ now > l.expires))) := by
  unfold is_available
  cases h : lmGet s.leases addr with
  | none =>
    simp [h, Bool.and_eq_true, decide_eq_true_eq, and_assoc]
  | some l =>
    simp only [h, Bool.and_eq_true, decide_eq_true_eq, Bool.or_eq_true, beq_iff_eq,
      ge_iff_le, Option.some.injEq, and_assoc, gt_iff_lt]
    constructor
    · rintro ⟨h1, h2, h3⟩
      exact ⟨h1, h2, Or.inr ⟨l, rfl, h3⟩⟩
    · rintro ⟨h1, h2, h3 | ⟨l2, hl2, h4⟩⟩
      · cases h3
      · cases hl2
        exact ⟨h1, h2, h4⟩

/-- C2: after any sequence of server operations, every MAC owns at most one
entry of the lease table. -/
theorem single_lease_per_mac {N : Nat} (s : Server N) (h : Reachable N s) (m : Mac) :
    macCount s.leases m ≤ 1 :=
  (reachable_inv h).2.1 m

/-- Witness for C2: the invariant holds in the concrete state reached from a
fresh server by handling one `Request` datagram from `macA`. -/
theorem single_lease_per_mac_w : macCount sStep.leases macA ≤ 1 :=
  single_lease_per_mac _
    (Reachable.step (r := some ⟨.ack, some 10⟩) 0 (.ok pReq)
      (Reachable.init conf0) (by decide))
    macA

/-- C5: after any sequence of server operations, every key of the lease table
lies in the inclusive pool `[range_start, range_end]`. -/
theorem pool_containment {N : Nat} (s : Server N) (h : Reachable N s) :
    ∀ e ∈ s.leases, s.range_start ≤ e.1 ∧ e.1 ≤ s.range_end :=
  (reachable_inv h).2.2

/-- Witness for C5: pool containment of the one lease in the concrete state
reached from a fresh server by handling one `Request` datagram. -/
theorem pool_containment_w :
    sStep.range_start ≤ (10 : Nat) ∧ (10 : Nat) ≤ sStep.range_end :=
  pool_containment _
    (Reachable.step (r := some ⟨.ack, some 10⟩) 0 (.ok pReq)
      (Reachable.init conf0) (by decide))
    (10, ⟨macA, 3600⟩) (by decide)

theorem scanFree_eq_some {es : Entries} : ∀ (n pos : Nat) (a : Nat),
    scanFree es pos n = some a →
    pos ≤ a ∧ a < pos + n ∧ lmContains es a = false ∧
      ∀ b, pos ≤ b → b < a → lmContains es b = true := by
  intro n
  induction n with
  | zero => intro pos a h; simp [scanFree] at h
  | succ n ih =>
    intro pos a h
    unfold scanFree at h
    by_cases hc : lmContains es pos = true
    · rw [if_pos hc] at h
      obtain ⟨h1, h2, h3, h4⟩ := ih (pos + 1) a h
      refine ⟨by omega, by omega, h3, ?_⟩
      intro b hb1 hb2
      by_cases hbp : b = pos
      · rw [hbp]; exact hc
      · exact h4 b (by omega) hb2
    · rw [Bool.not_eq_true] at hc
      rw [if_neg (by simp [hc])] at h
      injection h with h'
      subst h'
      exact ⟨Nat.le_refl _, by omega, hc, fun b hb1 hb2 => absurd hb2 (by omega)⟩

theorem scanFree_first {es : Entries} : ∀ (n pos a : Nat),
    pos ≤ a → a < pos + n → lmContains es a = false →
    (∀ b, pos ≤ b → b < a → lmContains es b = true) →
    scanFree es pos n = some a := by
  intro n
  induction n with
  | zero => intro pos a h1 h2 h3 h4; omega
  | succ n ih =>
    intro pos a h1 h2 h3 h4
    unfold scanFree
    by_cases hpa : pos = a
    · subst hpa
      rw [if_neg (by simp [h3])]
    · have hcp : lmContains es pos = true := h4 pos (Nat.le_refl _) (by omega)
      rw [if_pos hcp]
      exact ih (pos + 1) a (by omega) (by omega) h3 (fun b hb1 hb2 => h4 b (by omega) hb2)

theorem scanFree_all {es : Entries} : ∀ (n pos : Nat),
    (∀ b, pos ≤ b → b < pos + n → lmContains es b = true) →
    scanFree es pos n = none := by
  intro n
  induction n with
  | zero => intro pos h; rfl
  | succ n ih =>
    intro pos h
    unfold scanFree
    rw [if_pos (h pos (Nat.le_refl _) (by omega))]
    exact ih (pos + 1) (fun b hb1 hb2 => h b (by omega) (by omega))

/-- C3: `available()` scans the pool in ascending order and returns the first
address absent from the lease table; when every pool address is present it
removes some expired entry and returns its address, or returns `none` when no
entry is expired; consequently it never returns an address whose current
lease is unexpired.  (The pool must not end at `255.255.255.255`; that corner
is the subject of the overflow claim.) -/
theorem available_spec {N : Nat} (s : Server N) (now : Nat)
    (hnd : KeysNodup s.leases) (hend : s.range_end < 2 ^ 32 - 1) :
    (∀ a, inPool s a → lmContains s.leases a = false →
        (∀ b, inPool s b → b < a → lmContains s.leases b = true) →
        available s now = (some a, s)) ∧
    ((∀ b, inPool s b → lmContains s.leases b = true) →
        ((available s now).1 = none ∧ (available s now).2 = s ∧
            ∀ e ∈ s.leases, ¬ now > e.2.expires) ∨
          (∃ a l, (available s now).1 = some a ∧ lmGet s.leases a = some l ∧
            now > l.expires ∧ (available s now).2.leases = lmRemove s.leases a)) ∧
    (∀ a, (available s now).1 = some a →
        ∀ l, lmGet s.leases a = some l → now > l.expires) := by
  have hb : (s.range_end + 1) % 2 ^ 32 = s.range_end + 1 :=
    Nat.mod_eq_of_lt (by omega)
  refine ⟨?_, ?_, ?_⟩
  · -- ascending first-free scan
    intro a hpool hfree hbefore
    have hscan : scanFree s.leases s.range_start
        ((s.range_end + 1) % 2 ^ 32 - s.range_start) = some a := by
      apply scanFree_first
      · exact hpool.1
      · rw [hb]
        have := hpool.2
        omega
      · exact hfree
      · intro b hb1 hb2
        exact hbefore b ⟨hb1, by have := hpool.2; omega⟩ hb2
    simp only [available, hscan]
  · -- full pool: reclaim an expired entry or fail
    intro hfull
    have hscan : scanFree s.leases s.range_start
        ((s.range_end + 1) % 2 ^ 32 - s.range_start) = none := by
      apply scanFree_all
      intro b hb1 hb2
      rw [hb] at hb2
      exact hfull b ⟨hb1, by omega⟩
    cases hsw : s.leases.findSome?
        (fun e => if decide (now > e.2.expires) then some e.1 else none) with
    | some addr =>
      right
      obtain ⟨e, hem, hee⟩ := List.exists_of_findSome?_eq_some hsw
      by_cases hexp : now > e.2.expires
      case neg => simp [hexp] at hee
      have haddr : e.1 = addr := by
        simp only [hexp, decide_eq_true_eq, if_pos, Option.some.injEq] at hee
        simpa using hee
      have hget : lmGet s.leases addr = some e.2 := by
        apply lmGet_of_mem hnd
        rw [← haddr]
        exact hem
      refine ⟨addr, e.2, ?_, hget, hexp, ?_⟩
      · simp only [available, hscan, hsw]
      · simp only [available, hscan, hsw]
    | none =>
      left
      have hAv : available s now = (none, s) := by
        simp only [available, hscan, hsw]
      rw [List.findSome?_eq_none_iff] at hsw
      refine ⟨by rw [hAv], by rw [hAv], ?_⟩
      intro e he hexp
      have := hsw e he
      simp [hexp] at this
  · -- monotonic reclaim
    intro a hsome l hget
    cases hscan : scanFree s.leases s.range_start
        ((s.range_end + 1) % 2 ^ 32 - s.range_start) with
    | some a0 =>
      have hAv : available s now = (some a0, s) := by
        simp only [available, hscan]
      rw [hAv] at hsome
      injection hsome with h'
      subst h'
      have hfree := (scanFree_eq_some _ _ _ hscan).2.2.1
      rw [← lmGet_eq_none_iff] at hfree
      rw [hfree] at hget
      cases hget
    | none =>
      cases hsw : s.leases.findSome?
          (fun e => if decide (now > e.2.expires) then some e.1 else none) with
      | some addr =>
        have hAv : available s now =
            (some addr, { s with leases := lmRemove s.leases addr }) := by
          simp only [available, hscan, hsw]
        rw [hAv] at hsome
        injection hsome with h'
        subst h'
        obtain ⟨e, hem, hee⟩ := List.exists_of_findSome?_eq_some hsw
        by_cases hx : now > e.2.expires
        case neg => simp [hx] at hee
        have haddr : e.1 = addr := by
          simp only [hx, decide_eq_true_eq, if_pos, Option.some.injEq] at hee
          simpa using hee
        have hget2 : lmGet s.leases addr = some e.2 := by
          apply lmGet_of_mem hnd
          rw [← haddr]
          exact hem
        rw [hget2] at hget
        injection hget with h2
        rw [← h2]
        exact hx
      | none =>
        have hAv : available s now = (none, s) := by
          simp only [available, hscan, hsw]
        rw [hAv] at hsome
        cases hsome

/-- Witness for C3: on a concrete server with pool `[10, 12]` and address 10
leased, the scan returns 11 and leaves the state unchanged. -/
theorem available_spec_w : available s3 0 = (some 11, s3) :=
  (available_spec s3 0 (by unfold KeysNodup; decide) (by decide)).1 11
    (by unfold inPool; decide) (by decide)
    (by
      intro b hbp hlt
      have h1 : (10 : Nat) ≤ b := hbp.1
      have h10 : b = 10 := by omega
      subst h10
      decide)

/-- C10: the scan bound `range_end + 1` is computed in 32-bit arithmetic, so
the ascending scan covers the pool iff `range_end < 255.255.255.255`: on an
empty lease table `available` returns `range_start` exactly when the bound
does not overflow. -/
theorem available_overflow {N : Nat} (s : Server N) (now : Nat)
    (hl : s.leases = []) (hse : s.range_start ≤ s.range_end)
    (hlt : s.range_end < 2 ^ 32) :
    ((available s now).1 = some s.range_start ↔ s.range_end < 2 ^ 32 - 1) := by
  by_cases hend : s.range_end < 2 ^ 32 - 1
  · have hb : (s.range_end + 1) % 2 ^ 32 = s.range_end + 1 :=
      Nat.mod_eq_of_lt (by omega)
    have hscan : scanFree s.leases s.range_start
        ((s.range_end + 1) % 2 ^ 32 - s.range_start) = some s.range_start := by
      apply scanFree_first
      · exact Nat.le_refl _
      · rw [hb]; omega
      · rw [hl]; rfl
      · intro b hb1 hb2; omega
    have hAv : available s now = (some s.range_start, s) := by
      simp only [available, hscan]
    simp only [hAv]
    simp
    omega
  · have he : s.range_end = 2 ^ 32 - 1 := by omega
    have hz : (s.range_end + 1) % 2 ^ 32 = 0 := by
      rw [he]
      norm_num
    have hscan : scanFree s.leases s.range_start
        ((s.range_end + 1) % 2 ^ 32 - s.range_start) = none := by
      rw [hz]
      simp [scanFree]
    have hsw : s.leases.findSome?
        (fun e => if decide (now > e.2.expires) then some e.1 else none) = none := by
      rw [hl]; rfl
    have hAv : available s now = (none, s) := by
      simp only [available, hscan, hsw]
    simp only [hAv]
    simp
    omega

/-- Witness for C10: with pool `[0, 255.255.255.255]` and an empty table the
scan finds nothing (the bound wrapped to 0), matching the overflow side of
the equivalence. -/
theorem available_overflow_w :
    ((available s10 0).1 = some s10.range_start ↔ s10.range_end < 2 ^ 32 - 1) :=
  available_overflow s10 0 rfl (by decide) (by decide)

/-- Every frame accumulated by the client attempt loop is either one of the
frames already sent, or the frame of some attempt `j` in the window: sent on
a socket connected from `(our_ip|broadcast, 67)` to `(server_ip|broadcast,
66)` with `secs` the elapsed seconds truncated `as u16`. -/
theorem sendAttempts_frames (env : Nat → AttemptEnv) (expected : List MessageType)
    (server_ip our_ip : Option Nat) (start : Nat) :
    ∀ (n i : Nat) (sent : List SentFrame) (f : SentFrame),
      f ∈ (Client.sendAttempts env expected server_ip our_ip start i n sent).2 →
      f ∈ sent ∨ ∃ j, i ≤ j ∧ j < i + n ∧
        f = mkFrame server_ip our_ip start ((env j).now) := by
  intro n
  induction n with
  | zero =>
    intro i sent f hf
    left
    exact hf
  | succ n ih =>
    intro i sent f hf
    have hstep : ∀ g ∈ sent ++ [mkFrame server_ip our_ip start ((env i).now)],
        g ∈ sent ∨ ∃ j, i ≤ j ∧ j < i + (n + 1) ∧
          g = mkFrame server_ip our_ip start ((env j).now) := by
      intro g hg
      rcases List.mem_append.mp hg with hg1 | hg2
      · left; exact hg1
      · right
        rcases List.mem_singleton.mp hg2 with rfl
        exact ⟨i, Nat.le_refl _, by omega, rfl⟩
    by_cases hexp : expected.isEmpty = true
    · simp only [Client.sendAttempts, hexp, if_true] at hf
      exact hstep f hf
    · rw [Bool.not_eq_true] at hexp
      cases hi : (env i).inner with
      | matched mt =>
        simp only [Client.sendAttempts, hexp, Bool.false_eq_true, if_false, hi] at hf
        exact hstep f hf
      | timedOut =>
        simp only [Client.sendAttempts, hexp, Bool.false_eq_true, if_false, hi] at hf
        rcases ih (i + 1) _ f hf with hf1 | ⟨j, hj1, hj2, hj3⟩
        · exact hstep f hf1
        · right
          exact ⟨j, by omega, by omega, hj3⟩
      | ioError =>
        simp only [Client.sendAttempts, hexp, Bool.false_eq_true, if_false, hi] at hf
        exact hstep f hf
      | formatError =>
        simp only [Client.sendAttempts, hexp, Bool.false_eq_true, if_false, hi] at hf
        exact hstep f hf

/-- C6 (amended): in every attempt, the request packet's `secs` field equals
the elapsed whole seconds since the operation's start, truncated to `u16`
(reduced mod 65536 by the `as` cast) — not saturated. -/
theorem send_secs_truncated (env : Nat → AttemptEnv) (expected : List MessageType)
    (server_ip our_ip : Option Nat) (start retries : Nat) (f : SentFrame)
    (hf : f ∈ (Client.send env expected server_ip our_ip start retries).2) :
    ∃ j, j < retries ∧ f.secs = ((env j).now - start) % 65536 := by
  rcases sendAttempts_frames env expected server_ip our_ip start retries 0 [] f hf with
    h | ⟨j, h1, h2, h3⟩
  · cases h
  · exact ⟨j, by omega, by rw [h3]; rfl⟩

/-- Witness for C6: with the clock at 70000 s and one attempt, the sent frame
carries `secs = 70000 % 65536 = 4464`. -/
theorem send_secs_truncated_w :
    ∃ j, j < 1 ∧ (mkFrame none none 0 70000).secs = ((env70000 j).now - 0) % 65536 :=
  send_secs_truncated env70000 [MessageType.offer] none none 0 1 _ (by decide)

/-- C6 counterexample: at 65536 elapsed seconds the sent frame's `secs` field
is 0, not the 65535 that saturation would give. -/
theorem send_secs_not_saturated :
    (Client.send env65536 [MessageType.offer] none none 0 1).2.map SentFrame.secs = [0] ∧
    ¬ (Client.send env65536 [MessageType.offer] none none 0 1).2.map SentFrame.secs
        = [65535] := by
  constructor
  · rfl
  · decide

/-- C7: every frame of every attempt goes out on a socket connected with
remote port 66 and local port 67 (the code's actual ports: the spec's
RFC-correct 67/68 differ), substituting `255.255.255.255` for an unknown
server or client address. -/
theorem send_ports (env : Nat → AttemptEnv) (expected : List MessageType)
    (server_ip our_ip : Option Nat) (start retries : Nat) (f : SentFrame)
    (hf : f ∈ (Client.send env expected server_ip our_ip start retries).2) :
    f.remotePort = 66 ∧ f.localPort = 67 ∧
      f.remoteAddr = server_ip.getD BROADCAST ∧ f.localAddr = our_ip.getD BROADCAST := by
  rcases sendAttempts_frames env expected server_ip our_ip start retries 0 [] f hf with
    h | ⟨j, h1, h2, h3⟩
  · cases h
  · rw [h3]
    exact ⟨rfl, rfl, rfl, rfl⟩

/-- Witness for C7: the one frame of a concrete `release` call (empty
expected set, known server 5, unknown local address) has remote port 66,
local port 67 and the broadcast local address. -/
theorem send_ports_w :
    (mkFrame (some 5) none 0 3).remotePort = 66 ∧
    (mkFrame (some 5) none 0 3).localPort = 67 ∧
    (mkFrame (some 5) none 0 3).remoteAddr = (some 5).getD BROADCAST ∧
    (mkFrame (some 5) none 0 3).localAddr = (none : Option Nat).getD BROADCAST :=
  send_ports (fun _ => ⟨3, .timedOut⟩) [] (some 5) none 0 1 _ (by decide)

/-- C9: with `retries = 0` the attempt loop body never runs: every client
operation returns `Err(Timeout)` without sending a single frame — also for
release and decline, whose empty expected-reply sets would otherwise return
success right after the first send. -/
theorem send_zero_retries (env : Nat → AttemptEnv) (expected : List MessageType)
    (server_ip our_ip : Option Nat) (start : Nat) :
    Client.send env expected server_ip our_ip start 0 =
      (Except.error ClientError.timeout, []) := rfl

/-- `lmInsert` fails only when the key is absent and the table is full, and
then leaves the entries unchanged. -/
theorem lmInsert_fail {cap : Nat} {es : Entries} {k : Nat} {v : Lease}
    (h : (lmInsert cap es k v).2 = false) :
    (lmInsert cap es k v).1 = es ∧ es.any (fun e => e.1 == k) = false ∧
      ¬ es.length < cap := by
  unfold lmInsert at *
  by_cases h1 : es.any (fun e => e.1 == k) = true
  · rw [if_pos h1] at h
    cases h
  · rw [Bool.not_eq_true] at h1
    by_cases h2 : es.length < cap
    · rw [if_neg (by simp [h1]), if_pos h2] at h
      cases h
    · rw [if_neg (by simp [h1]), if_neg h2] at h
      rw [if_neg (by simp [h1]), if_neg h2]
      exact ⟨rfl, h1, h2⟩

/-- When `add_lease` fails, the MAC held no lease before the call (otherwise
its removal would have freed a slot), so the server state is unchanged. -/
theorem add_lease_fail_eq {N : Nat} {s : Server N} {addr : Nat} {mac : Mac} {exp : Nat}
    (hlen : s.leases.length ≤ N)
    (hfail : (add_lease s addr mac exp).2 = false) :
    (add_lease s addr mac exp).1 = s := by
  have hfail2 : (lmInsert N (remove_lease s mac).1.leases addr ⟨mac, exp⟩).2 = false := hfail
  cases hc : current_lease s mac with
  | some a0 =>
    exfalso
    -- the removal freed a slot, so the insert cannot have failed
    have hc2 : List.findSome? (fun e => if e.2.mac == mac then some e.1 else none)
        s.leases = some a0 := hc
    obtain ⟨e, hem, hee⟩ := List.exists_of_findSome?_eq_some hc2
    by_cases hmm : e.2.mac == mac
    case neg => simp [hmm] at hee
    have ha0 : e.1 = a0 := by
      simp only [hmm, if_true, Option.some.injEq] at hee
      exact hee
    have hpe : (fun x : Nat × Lease => x.1 == a0) e = true := by simp [ha0]
    obtain ⟨b, l₁, l₂, hl₁, hpb, hdec, herase⟩ :=
      List.exists_of_eraseP (p := fun x : Nat × Lease => x.1 == a0) hem hpe
    have hleases : (remove_lease s mac).1.leases = lmRemove s.leases a0 := by
      unfold remove_lease
      rw [hc]
    have hshort : (remove_lease s mac).1.leases.length < N := by
      rw [hleases]
      unfold lmRemove
      rw [herase, List.length_append]
      have : s.leases.length = l₁.length + (l₂.length + 1) := by
        rw [hdec, List.length_append, List.length_cons]
      omega
    obtain ⟨-, -, hnl⟩ := lmInsert_fail hfail2
    exact hnl hshort
  | none =>
    have hs1 : remove_lease s mac = (s, false) := by
      unfold remove_lease
      rw [hc]

    obtain ⟨hunch, -, -⟩ := lmInsert_fail hfail2
    show ({ (remove_lease s mac).1 with
      leases := (lmInsert N (remove_lease s mac).1.leases addr ⟨mac, exp⟩).1 } : Server N) = s
    rw [hunch, hs1]

/-- C8 (amended): if the server processes a Request whose `add_lease` insert
fails, the client's MAC necessarily had no earlier lease, so the removal
inside `add_lease` was a no-op: the server replies Nak and the lease table is
exactly as before — the Nak path is atomic. -/
theorem request_nak_atomic {N : Nat} (s : Server N) (now : Nat) (p : Packet)
    (hlen : s.leases.length ≤ N)
    (hr : p.reply = false)
    (hmt : findMessageType p.options = some MessageType.request)
    (hsid : findServerIdentifier p.options = some s.ip)
    (hfail : (add_lease s ((findRequestedIp p.options).getD p.ciaddr) p.chaddr
      (now + s.lease_duration)).2 = false) :
    handle s now (.ok p) = .ok (s, some ⟨.nak, none⟩) := by
  have hguard : (findServerIdentifier p.options == some s.ip
      || (findServerIdentifier p.options == none
        && MessageType.request == MessageType.discover)) = true := by
    rw [hsid]
    simp
  simp only [handle, hr, Bool.not_false, if_true, hmt, hguard, handleMessage]
  unfold handleRequest
  by_cases hav : is_available s now p.chaddr ((findRequestedIp p.options).getD p.ciaddr) = true
  · have hatomic := add_lease_fail_eq hlen hfail
    simp only [hav, if_true, hfail, Bool.false_eq_true, if_false, hatomic]
  · rw [Bool.not_eq_true] at hav
    simp only [hav, Bool.false_eq_true, if_false]

/-- Witness for C8 (amended): the concrete full-capacity-1 scenario — `macB`
holds the only slot, `macA` requests a free pool address — yields Nak with
the table untouched. -/
theorem request_nak_atomic_w : handle s8 0 (.ok p8) = .ok (s8, some ⟨.nak, none⟩) :=
  request_nak_atomic s8 0 p8 (by decide) rfl (by decide) (by decide) (by decide)

/-- C8 counterexample: in that same scenario all of the claim's premises hold
— `is_available` is true and the insert fails — yet the lease table after the
call equals the table before it, refuting the claimed modification. -/
theorem nak_full_table_unchanged :
    is_available s8 0 macA 15 = true ∧
    (add_lease s8 15 macA (0 + s8.lease_duration)).2 = false ∧
    handle s8 0 (.ok p8) = .ok (s8, some ⟨.nak, none⟩) := by
  refine ⟨by decide, by decide, by decide⟩

/-- C4 (amended): packets addressed to another server or carrying an
unsupported message type (and reply packets) are silently dropped: `handle`
returns Ok with no reply and an unchanged lease table.  Malformed datagrams
are NOT dropped: `handle` propagates the decode error (see the
counterexample). -/
theorem handle_lenient {N : Nat} (s : Server N) (now : Nat) (p : Packet)
    (h : p.reply = true ∨
      (∃ x, findServerIdentifier p.options = some x ∧ x ≠ s.ip) ∨
      (∀ mt, findMessageType p.options = some mt →
        mt = MessageType.offer ∨ mt = MessageType.ack ∨ mt = MessageType.nak ∨
          mt = MessageType.inform)) :
    handle s now (.ok p) = .ok (s, none) := by
  by_cases hr : p.reply = true
  · simp [handle, hr]
  · rw [Bool.not_eq_true] at hr
    cases hmt : findMessageType p.options with
    | none => simp [handle, hr, hmt]
    | some mt =>
      rcases h with h | ⟨x, hx, hne⟩ | h
      · rw [h] at hr
        cases hr
      · have hg : (findServerIdentifier p.options == some s.ip
            || (findServerIdentifier p.options == none && mt == MessageType.discover)) = false := by
          rw [hx]
          simp [hne]
        simp [handle, hr, hmt, hg]
      · have hmt2 := h mt hmt
        by_cases hg : (findServerIdentifier p.options == some s.ip
            || (findServerIdentifier p.options == none && mt == MessageType.discover)) = true
        · simp only [handle, hr, Bool.not_false, if_true, hmt, hg]
          rcases hmt2 with rfl | rfl | rfl | rfl <;> rfl
        · rw [Bool.not_eq_true] at hg
          simp [handle, hr, hmt, hg]

/-- Witness for C4 (amended): a reply packet is dropped with Ok and no state
change. -/
theorem handle_lenient_w : handle s8 0 (.ok p4) = .ok (s8, none) :=
  handle_lenient s8 0 p4 (Or.inl rfl)

/-- C4 counterexample: a datagram that fails to decode makes `handle` return
the Format error — not Ok — so a malformed packet terminates `run`. -/
theorem handle_malformed_not_ok :
    isOkE (handle s8 0 (Except.error FormatError.bad)) = false := rfl

end EdgeNet

